import Mathlib

/-!
Verification of the page-replacement simulator (`memory_model.py`).

The Python model is shallowly embedded: the mutable `AlgoState` / `PageManager`
objects become immutable structures, and every mutating method becomes a
function returning the updated structure.  Machine integers are `Nat`/`Int`
(no overflow is possible in the source: all counters only grow and Python
integers are unbounded).  The pseudo-random generator is abstracted as an
oracle stream of draws (`Rng`): a `random.random() < p` test becomes a `Bool`
field of the draw and `random.randint(a, b)` becomes `a + draw % (b - a + 1)`,
which ranges over exactly the values the source can produce.  Methods that can
raise become `Except String`.
-/

namespace MemModel

/-- Operation type: `'R'` read / `'W'` write. -/
inductive Op where
  | R
  | W
deriving DecidableEq, Repr

/-- The five algorithm names handled by `AlgoState`. -/
inductive AlgoName where
  | FIFO
  | LRU
  | OPT
  | LINUX
  | LINUX_NG
deriving DecidableEq, Repr

/-- One occupied page frame: the dict built in `AlgoState._handle_miss`.
`ref_bit` is an integer (`0`/`1`) in the source and is kept as a `Nat`. -/
structure Frame where
  page : Nat
  pid : Option Nat
  loaded_at : Nat
  last_access : Nat
  ref_bit : Nat
  dirty : Bool
  is_active_list : Bool
deriving DecidableEq, Repr

/-- The result dict returned by `AlgoState.process`. -/
inductive Status where
  | Hit
  | Miss
deriving DecidableEq, Repr

structure ProcResult where
  status : Status
  swapped : Option Nat
  swapped_pid : Option Nat
  is_write_back : Bool
deriving DecidableEq, Repr

/-- State machine of a single replacement algorithm (`class AlgoState`). -/
structure AlgoState where
  name : AlgoName
  memory_blocks : Nat
  memory : List (Option Frame)
  miss_count : Nat
  total_count : Nat
  write_back_count : Nat
  load_counter : Nat
  clock_hand : Nat
deriving DecidableEq, Repr

/-- `AlgoState.__init__`. -/
def AlgoState.init (name : AlgoName) (memory_blocks : Nat) : AlgoState :=
  { name := name
    memory_blocks := memory_blocks
    memory := List.replicate memory_blocks none
    miss_count := 0
    total_count := 0
    write_back_count := 0
    load_counter := 0
    clock_hand := 0 }

/-- Index of the first slot satisfying `p`, scanning the table in order
(models the `for i, frame in enumerate(self.memory)` searches). -/
def findSlotIdx (p : Option Frame → Bool) : List (Option Frame) → Option Nat
  | [] => none
  | of :: rest => if p of then some 0 else (findSlotIdx p rest).map (fun i => i + 1)

/-- The hit test of `AlgoState.process`: the frame holds the requested page
and, when the request carries a pid, the same pid. -/
def hitPred (page : Nat) (pid : Option Nat) (of : Option Frame) : Bool :=
  match of with
  | none => false
  | some f => f.page == page && (pid.isNone || f.pid == pid)

/-- First index (lowest slot number) of an occupied frame satisfying `p`
whose `key` is minimal; returns the index together with the key.  This is
`min([...], key=...)` followed by `self.memory.index(victim)`: Python's `min`
keeps the first minimal element of the scan, and `index` recovers its slot
(frames are distinct dicts in every reachable state, so `index` finds exactly
the minimising slot). -/
def argminAux (p : Frame → Bool) (key : Frame → Nat) : List (Option Frame) → Option (Nat × Nat)
  | [] => none
  | none :: rest =>
    match argminAux p key rest with
    | none => none
    | some jk => some (jk.1 + 1, jk.2)
  | some f :: rest =>
    match argminAux p key rest with
    | none => if p f then some (0, key f) else none
    | some jk =>
      if p f then
        if key f ≤ jk.2 then some (0, key f) else some (jk.1 + 1, jk.2)
      else some (jk.1 + 1, jk.2)

def argminIdx (p : Frame → Bool) (key : Frame → Nat) (mem : List (Option Frame)) : Option Nat :=
  (argminAux p key mem).map (fun ik => ik.1)

/-- First index of an occupied frame with maximal `key` (the manual
`if dist > max_dist` loop of `_get_opt_victim` keeps the first maximum). -/
def argmaxAux (p : Frame → Bool) (key : Frame → Nat) : List (Option Frame) → Option (Nat × Nat)
  | [] => none
  | none :: rest =>
    match argmaxAux p key rest with
    | none => none
    | some jk => some (jk.1 + 1, jk.2)
  | some f :: rest =>
    match argmaxAux p key rest with
    | none => if p f then some (0, key f) else none
    | some jk =>
      if p f then
        if jk.2 ≤ key f then some (0, key f) else some (jk.1 + 1, jk.2)
      else some (jk.1 + 1, jk.2)

def argmaxIdx (p : Frame → Bool) (key : Frame → Nat) (mem : List (Option Frame)) : Option Nat :=
  (argmaxAux p key mem).map (fun ik => ik.1)

/-- `list.index(x)` returning `none` when absent (used for
`future_pages.index(frame['page'])` with its `except ValueError`). -/
def idxOf? (x : Nat) : List Nat → Option Nat
  | [] => none
  | a :: rest => if a = x then some 0 else (idxOf? x rest).map (fun i => i + 1)

/-- Future-use distance of a page: index of its first future occurrence,
`99999` when it never occurs again. -/
def futureDist (future : List Nat) (page : Nat) : Nat :=
  match idxOf? page future with
  | some d => d
  | none => 99999

/-- `AlgoState._get_opt_victim`.  The source indexes every slot and would
raise on an empty one; at both call sites the table is fully occupied, so
empty slots (skipped here) are unreachable.  The `-1` initial value of
`victim_idx` is kept by returning an `Int`. -/
def getOptVictim (future : Option (List Nat)) (mem : List (Option Frame)) : Int :=
  match future with
  | none => 0
  | some fut =>
    match argmaxIdx (fun _ => true) (fun f => futureDist fut f.page) mem with
    | some i => Int.ofNat i
    | none => -1

/-- The scan loop of `AlgoState._run_clock_algorithm`: walks the hand,
clearing set reference bits (unless `dryRun`), until a slot with a cleared
bit is found (`some victim`) or the fuel (the `range(...)` bound) runs out
(`none`, the source's fall-through).  The last component is the hand position
after the scan: past the victim on success, the current probe on exhaustion.
A missing or empty slot would raise in the source; every call site has a
fully occupied table, so that case is modelled as scan abort. -/
def clockScan (dryRun : Bool) : Nat → List (Option Frame) → Nat → Nat → Option Nat × List (Option Frame) × Nat
  | 0, mem, hand, _ => (none, mem, hand)
  | fuel + 1, mem, hand, blocks =>
    match mem.get? hand with
    | some (some f) =>
      if f.ref_bit = 1 then
        clockScan dryRun fuel
          (if dryRun then mem else mem.set hand (some { f with ref_bit := 0 }))
          ((hand + 1) % blocks) blocks
      else (some hand, mem, (hand + 1) % blocks)
    | _ => (none, mem, hand)

/-- `AlgoState._run_clock_algorithm` (fuel `memory_blocks * 2 + 1`).  On
success the hand advances past the victim; on exhaustion the source returns
the current probe position without moving the stored hand. -/
def AlgoState.runClockAlgorithm (st : AlgoState) (dryRun : Bool) : Nat × AlgoState :=
  match clockScan dryRun (st.memory_blocks * 2 + 1) st.memory st.clock_hand st.memory_blocks with
  | (some v, mem, hand) => (v, if dryRun then st else { st with memory := mem, clock_hand := hand })
  | (none, mem, hand) => (hand, if dryRun then st else { st with memory := mem })

/-- `AlgoState._get_victim`: victim slot index, plus the (possibly mutated)
memory and clock hand — only the clock branch mutates.  The leading
`if not valid_frames: return 0` is the first test in the source. -/
def AlgoState.getVictim (st : AlgoState) (future : Option (List Nat)) : Nat × List (Option Frame) × Nat :=
  if st.memory.all (fun of => of.isNone) then (0, st.memory, st.clock_hand)
  else
    match st.name with
    | .FIFO => ((argminIdx (fun _ => true) (fun f => f.loaded_at) st.memory).getD 0, st.memory, st.clock_hand)
    | .LRU => ((argminIdx (fun _ => true) (fun f => f.last_access) st.memory).getD 0, st.memory, st.clock_hand)
    | .OPT => ((getOptVictim future st.memory).toNat, st.memory, st.clock_hand)
    | .LINUX =>
      let vs := st.runClockAlgorithm false
      (vs.1, vs.2.memory, vs.2.clock_hand)
    | .LINUX_NG =>
      let hasInactive := st.memory.any (fun of =>
        match of with
        | some f => !f.is_active_list
        | none => false)
      let p : Frame → Bool := if hasInactive then (fun f => !f.is_active_list) else (fun _ => true)
      ((argminIdx p (fun f => f.last_access) st.memory).getD 0, st.memory, st.clock_hand)

/-- In-place mutation of the frame stored at slot `i` (no-op when the slot is
empty or out of range, matching a `self.memory[idx]` read that is always in
range at the call sites). -/
def updateFrame (mem : List (Option Frame)) (i : Nat) (g : Frame → Frame) : List (Option Frame) :=
  match mem.get? i with
  | some (some f) => mem.set i (some (g f))
  | _ => mem

/-- Number of frames on the active list. -/
def activeCount (mem : List (Option Frame)) : Nat :=
  mem.countP (fun of =>
    match of with
    | some f => f.is_active_list
    | none => false)

/-- `AlgoState._balance_lists`: when the active list exceeds half the
capacity, demote the active frame with the smallest `last_access`. -/
def balanceLists (mem : List (Option Frame)) (memory_blocks : Nat) : List (Option Frame) :=
  if memory_blocks / 2 < activeCount mem then
    match argminIdx (fun f => f.is_active_list) (fun f => f.last_access) mem with
    | some i => updateFrame mem i (fun f => { f with is_active_list := false })
    | none => mem
  else mem

/-- `AlgoState._handle_hit`. -/
def AlgoState.handleHit (st : AlgoState) (idx : Nat) (op : Op) (now : Nat) : ProcResult × AlgoState :=
  let mem1 := updateFrame st.memory idx (fun f => { f with last_access := now })
  let mem2 :=
    match st.name with
    | .LINUX => updateFrame mem1 idx (fun f => { f with ref_bit := 1 })
    | .LINUX_NG => balanceLists (updateFrame mem1 idx (fun f => { f with is_active_list := true })) st.memory_blocks
    | _ => mem1
  let mem3 := if op = .W then updateFrame mem2 idx (fun f => { f with dirty := true }) else mem2
  ({ status := .Hit, swapped := none, swapped_pid := none, is_write_back := false },
   { st with memory := mem3 })

/-- `AlgoState._handle_miss`.  An out-of-range victim index would raise in
the source (`self.memory[target_idx]`); that read is modelled by `get?` and
its unreachable failure case carries no victim. -/
def AlgoState.handleMiss (st : AlgoState) (page : Nat) (op : Op) (now : Nat)
    (future : Option (List Nat)) (pid : Option Nat) : ProcResult × AlgoState :=
  let miss := st.miss_count + 1
  let load := st.load_counter + 1
  let new_frame : Frame :=
    { page := page
      pid := pid
      loaded_at := load
      last_access := now
      ref_bit := 1
      dirty := op = .W
      is_active_list := false }
  match findSlotIdx (fun of => of.isNone) st.memory with
  | some t =>
    ({ status := .Miss, swapped := none, swapped_pid := none, is_write_back := false },
     { st with memory := st.memory.set t (some new_frame)
               miss_count := miss
               load_counter := load
               clock_hand := if st.name = .LINUX then (t + 1) % st.memory_blocks else st.clock_hand })
  | none =>
    let tmh := st.getVictim future
    let t := tmh.1
    let memS := tmh.2.1
    let handS := tmh.2.2
    match memS.get? t with
    | some (some victim) =>
      let wb := victim.dirty
      ({ status := .Miss, swapped := some victim.page, swapped_pid := victim.pid, is_write_back := wb },
       { st with memory := memS.set t (some new_frame)
                 miss_count := miss
                 load_counter := load
                 write_back_count := st.write_back_count + (if wb then 1 else 0)
                 clock_hand := if st.name = .LINUX then (t + 1) % st.memory_blocks else handS })
    | _ =>
      ({ status := .Miss, swapped := none, swapped_pid := none, is_write_back := false },
       { st with memory := memS.set t (some new_frame)
                 miss_count := miss
                 load_counter := load
                 clock_hand := if st.name = .LINUX then (t + 1) % st.memory_blocks else handS })

/-- `AlgoState.process`. -/
def AlgoState.process (st : AlgoState) (page : Nat) (op : Op) (now : Nat)
    (future : Option (List Nat)) (pid : Option Nat) : ProcResult × AlgoState :=
  let st1 := { st with total_count := st.total_count + 1 }
  match findSlotIdx (hitPred page pid) st1.memory with
  | some idx => st1.handleHit idx op now
  | none => st1.handleMiss page op now future pid

/-- The read-only clock walk of `predict_next_victim` (fuel
`memory_blocks * 2`, testing `ref_bit == 0`, no clearing). -/
def clockPredict (mem : List (Option Frame)) (blocks : Nat) : Nat → Nat → Nat
  | hand, 0 => hand
  | hand, fuel + 1 =>
    match mem.get? hand with
    | some (some f) => if f.ref_bit = 0 then hand else clockPredict mem blocks ((hand + 1) % blocks) fuel
    | _ => hand

/-- `AlgoState.predict_next_victim` (`-1` when some slot is still free). -/
def AlgoState.predictNextVictim (st : AlgoState) (future : Option (List Nat)) : Int :=
  if st.memory.any (fun of => of.isNone) then -1
  else
    match st.name with
    | .LINUX => Int.ofNat (clockPredict st.memory st.memory_blocks st.clock_hand (st.memory_blocks * 2))
    | _ => Int.ofNat (st.getVictim future).1

/-- One entry of the UI snapshot built by `AlgoState.get_snapshot`. -/
structure SnapEntry where
  page : Nat
  pid : Option Nat
  meta : String
  is_hand : Bool
  is_dirty : Bool
  is_active_list : Bool
deriving DecidableEq, Repr

/-- `AlgoState.get_snapshot`. -/
def AlgoState.getSnapshot (st : AlgoState) (now : Nat) : List (Option SnapEntry) :=
  (List.range st.memory.length).map (fun i =>
    match st.memory.get? i with
    | some (some f) =>
      let idle : Int := (now : Int) - (f.last_access : Int)
      let meta :=
        match st.name with
        | .FIFO => "SEQ:" ++ toString f.loaded_at
        | .LRU => "IDLE:" ++ toString idle
        | .LINUX => "REF:" ++ toString f.ref_bit
        | .LINUX_NG => (if f.is_active_list then "ACT:" else "INA:") ++ toString idle
        | .OPT => "OPT"
      let meta := if f.dirty then "DIRTY" else meta
      some { page := f.page
             pid := f.pid
             meta := meta
             is_hand := decide (st.name = AlgoName.LINUX ∧ i = st.clock_hand)
             is_dirty := f.dirty
             is_active_list := f.is_active_list }
    | _ => none)

/-- One trace instruction: `(address, op, pid)`.  All traces built by this
module are 3-tuples; the 2-tuple legacy branch of `step()` is dead. -/
abbrev Inst := Nat × Op × Option Nat

/-- One abstract draw of the pseudo-random generator, covering one generated
instruction: the hot/cold Bernoulli trial, the `randint` payload (reduced
modulo the range size at use sites) and the read/write Bernoulli trial. -/
structure GenDraw where
  isHot : Bool
  addrDraw : Nat
  isW : Bool
deriving DecidableEq, Repr

/-- The random oracle: one independent stream of draws for the single-process
generator and one per process for the multi-process generator. -/
structure Rng where
  single : Nat → GenDraw
  multi : Nat → Nat → GenDraw

/-- Per-process metadata installed by `_initialize_processes`. -/
structure ProcInfo where
  name : String
  color : String
  hot_range : Nat × Nat
  cold_range : Nat × Nat
deriving DecidableEq, Repr

def colorPalette : List String :=
  ["#89b4fa", "#a6e3a1", "#f9e2af", "#f38ba8", "#cba6f7"]

/-- `PageManager._initialize_processes`. -/
def mkProcessInfo (n : Nat) : List ProcInfo :=
  (List.range n).map (fun i =>
    { name := "P" ++ toString i
      color := (colorPalette.get? (i % colorPalette.length)).getD ""
      hot_range := (0, 4)
      cold_range := (50, 60) })

/-- Per-policy entry of the step report (`step_results[name]`).  `miss_rate`
is a binary float in the source; it is modelled exactly as a rational. -/
structure AlgoRes where
  status : Status
  swapped : Option Nat
  swapped_pid : Option Nat
  is_write_back : Bool
  miss_rate : Rat
  miss_count : Nat
  wb_count : Nat

/-- The dict returned by `PageManager.step`. -/
structure StepReport where
  inst : Nat
  op : Op
  page : Nat
  pid : Option Nat
  results : List (AlgoName × AlgoRes)
  view_algo : AlgoName
  memory : List (Option SnapEntry)
  next_victim : Int
  current_step : Nat

/-- Top-level simulation controller (`class PageManager`).  `mode` is the
source's string field (`"single"` / `"multi"` / `"BELADY"`); `algos` keeps the
insertion order of the source's dict (FIFO, LRU, OPT, LINUX, LINUX_NG). -/
structure PageManager where
  total_instructions : Nat
  memory_blocks : Nat
  total_pages : Nat
  mode : String
  num_processes : Nat
  process_info : List ProcInfo
  algos : List AlgoState
  current_inst_idx : Nat
  current_time : Nat
  view_algo_name : AlgoName
  instructions : List Inst

/-- One generated single-process instruction: hot (`randint(0, 39)`) or cold
(`randint(400, 600)`) address, abstract read/write draw, no pid. -/
def genSingleInst (d : GenDraw) : Inst :=
  if d.isHot then (d.addrDraw % 40, if d.isW then Op.W else Op.R, none)
  else (400 + d.addrDraw % 201, if d.isW then Op.W else Op.R, none)

/-- The single-process branch of `_generate_instructions` (the final
`insts[:total_instructions]` slice is the identity: exactly that many
instructions are generated). -/
def genSingle (draws : Nat → GenDraw) (n : Nat) : List Inst :=
  (List.range n).map (fun i => genSingleInst (draws i))

/-- `PageManager._generate_process_sequence`: `(address, op)` pairs with
addresses `page * 10`, where hot pages come from `randint(hot0, hot1 - 1)`
and cold pages from `randint(cold0, cold1 - 1)`. -/
def genProcSeq (draws : Nat → GenDraw) (hot cold : Nat × Nat) (len : Nat) : List (Nat × Op) :=
  (List.range len).map (fun i =>
    let d := draws i
    if d.isHot then ((hot.1 + d.addrDraw % (hot.2 - hot.1)) * 10, if d.isW then Op.W else Op.R)
    else ((cold.1 + d.addrDraw % (cold.2 - cold.1)) * 10, if d.isW then Op.W else Op.R))

/-- `PageManager._interleave_sequences`: round-robin bursts of 5 until the
longest sequence is exhausted.  With no sequences the source's
`max(len(seq) for seq in ...)` raises `ValueError`. -/
def interleaveSequences (seqs : List (Nat × List (Nat × Op))) : Except String (List Inst) :=
  match seqs with
  | [] => Except.error "ValueError: max() arg is an empty sequence"
  | _ =>
    let maxLength := (seqs.map (fun s => s.2.length)).foldl max 0
    let burst := 5
    Except.ok ((List.range ((maxLength + burst - 1) / burst)).flatMap (fun c =>
      seqs.flatMap (fun s =>
        ((s.2.drop (c * burst)).take burst).map (fun ao => (ao.1, ao.2, some s.1)))))

/-- `PageManager._generate_multi_process_instructions`.  With zero processes
no per-process sequence is built and the interleaver raises. -/
def genMulti (draws : Nat → Nat → GenDraw) (info : List ProcInfo) (total n : Nat) :
    Except String (List Inst) :=
  interleaveSequences ((List.range n).map (fun pid =>
    let pinfo := (info.get? pid).getD { name := "", color := "", hot_range := (0, 4), cold_range := (50, 60) }
    (pid, genProcSeq (draws pid) pinfo.hot_range pinfo.cold_range (max 800 (total / n)))))

/-- `PageManager._generate_instructions`: multi mode interleaves per-process
sequences; every other mode (including `"BELADY"`) takes the single-process
random branch. -/
def generateInstructions (rng : Rng) (pm : PageManager) : Except String (List Inst) :=
  if pm.mode = "multi" then genMulti rng.multi pm.process_info pm.total_instructions pm.num_processes
  else Except.ok (genSingle rng.single pm.total_instructions)

/-- `PageManager.reset_algos`: re-initialise each algorithm in place. -/
def PageManager.resetAlgos (pm : PageManager) : PageManager :=
  { pm with algos := pm.algos.map (fun a => AlgoState.init a.name pm.memory_blocks) }

/-- `PageManager.reset`. -/
def PageManager.reset (rng : Rng) (pm : PageManager) : Except String PageManager :=
  (generateInstructions rng pm).map (fun insts =>
    PageManager.resetAlgos
      { pm with current_inst_idx := 0
                current_time := 0
                view_algo_name := AlgoName.FIFO
                instructions := insts })

/-- `PageManager.__init__` (construction runs `reset()`, which can raise). -/
def PageManager.init (rng : Rng) (total_instructions total_pages memory_blocks : Nat)
    (mode : String) (num_processes : Nat) : Except String PageManager :=
  let np := if mode = "multi" then num_processes else 1
  let info := if mode = "multi" then mkProcessInfo np else []
  PageManager.reset rng
    { total_instructions := total_instructions
      memory_blocks := memory_blocks
      total_pages := total_pages
      mode := mode
      num_processes := np
      process_info := info
      algos := [AlgoState.init .FIFO memory_blocks, AlgoState.init .LRU memory_blocks,
                AlgoState.init .OPT memory_blocks, AlgoState.init .LINUX memory_blocks,
                AlgoState.init .LINUX_NG memory_blocks]
      current_inst_idx := 0
      current_time := 0
      view_algo_name := .FIFO
      instructions := [] }

/-- The Belady fixture pages. -/
def beladyPages : List Nat := [1, 2, 3, 4, 1, 2, 5, 1, 2, 3, 4, 5]

def beladyInstructions : List Inst := beladyPages.map (fun p => (p * 10, Op.R, none))

/-- `PageManager.load_belady_sequence` (`current_time` and the viewed
algorithm are left untouched by the source). -/
def PageManager.loadBeladySequence (pm : PageManager) : PageManager :=
  PageManager.resetAlgos
    { pm with mode := "BELADY"
              instructions := beladyInstructions
              current_inst_idx := 0 }

/-- The lookahead suffix used for OPT: pages of `instructions[k:]`. -/
def futurePagesOf (insts : List Inst) (k : Nat) : List Nat :=
  (insts.drop k).map (fun t => t.1 / 10)

/-- The `for name, algo in self.algos.items()` loop of `step()`: runs every
algorithm on the current access, computing the OPT lookahead lazily when the
OPT entry is reached and sharing it with the algorithms after it. -/
def runAlgos (insts : List Inst) (idx : Nat) (page : Nat) (op : Op) (now : Nat) (pid : Option Nat) :
    List AlgoState → Option (List Nat) → List (AlgoName × AlgoRes) × List AlgoState × Option (List Nat)
  | [], fut => ([], [], fut)
  | a :: rest, fut =>
    let fut1 := if a.name = .OPT ∧ fut = none then some (futurePagesOf insts (idx + 1)) else fut
    let pr := a.process page op now fut1 pid
    let a2 := pr.2
    let rate : Rat := if 0 < a2.total_count then ((a2.miss_count : Rat) / (a2.total_count : Rat)) * 100 else 0
    let entry : AlgoName × AlgoRes :=
      (a2.name,
       { status := pr.1.status
         swapped := pr.1.swapped
         swapped_pid := pr.1.swapped_pid
         is_write_back := pr.1.is_write_back
         miss_rate := rate
         miss_count := a2.miss_count
         wb_count := a2.write_back_count })
    let t := runAlgos insts idx page op now pid rest fut1
    (entry :: t.1, a2 :: t.2.1, t.2.2)

/-- `PageManager.step`: `none` is the end-of-trace signal (`return None`). -/
def PageManager.step (pm : PageManager) : Option StepReport × PageManager :=
  if pm.instructions.length ≤ pm.current_inst_idx then (none, pm)
  else
    match pm.instructions.get? pm.current_inst_idx with
    | none => (none, pm)
    | some inst =>
      let addr := inst.1
      let op := inst.2.1
      let pid := inst.2.2
      let page := addr / 10
      let now := pm.current_time + 1
      let r := runAlgos pm.instructions pm.current_inst_idx page op now pid pm.algos none
      let results := r.1
      let algos2 := r.2.1
      let futF := r.2.2
      let idx2 := pm.current_inst_idx + 1
      let viewAlgo := (algos2.find? (fun a => decide (a.name = pm.view_algo_name))).getD
        (AlgoState.init pm.view_algo_name pm.memory_blocks)
      let predFuture := if pm.view_algo_name = .OPT then futF else none
      let predFuture :=
        if pm.view_algo_name = .OPT ∧ predFuture = none then some (futurePagesOf pm.instructions idx2)
        else predFuture
      (some { inst := addr
              op := op
              page := page
              pid := pid
              results := results
              view_algo := pm.view_algo_name
              memory := viewAlgo.getSnapshot now
              next_victim := viewAlgo.predictNextVictim predFuture
              current_step := idx2 },
       { pm with current_time := now, current_inst_idx := idx2, algos := algos2 })

/-- State after `n` calls of `step()`. -/
def stepN : Nat → PageManager → PageManager
  | 0, pm => pm
  | n + 1, pm => (PageManager.step (stepN n pm)).2

/-- A fixed concrete random oracle used for concrete runs: every draw is a
hot read of the lowest address. -/
def rng0 : Rng :=
  { single := fun _ => { isHot := true, addrDraw := 0, isW := false }
    multi := fun _ _ => { isHot := true, addrDraw := 0, isW := false } }

/-! ### Generic list facts -/

theorem get?_lt {α : Type} {l : List α} {i : Nat} {a : α} (h : l.get? i = some a) :
    i < l.length := by
  by_contra hc
  push_neg at hc
  rw [List.get?_len_le hc] at h
  exact Option.noConfusion h

theorem get?_set_self {α : Type} (l : List α) (i : Nat) (v : α) (h : i < l.length) :
    (l.set i v).get? i = some v := by
  rw [List.get?_set, if_pos rfl, List.get?_eq_get h]
  rfl

theorem get?_of_lt {α : Type} {l : List α} {i : Nat} (h : i < l.length) :
    ∃ a, l.get? i = some a :=
  ⟨_, List.get?_eq_get h⟩

/-! ### `findSlotIdx` -/

theorem findSlotIdx_some {p : Option Frame → Bool} :
    ∀ {l : List (Option Frame)} {i : Nat}, findSlotIdx p l = some i →
      ∃ of, l.get? i = some of ∧ p of = true := by
  intro l
  induction l with
  | nil => intro i h; exact absurd h (by simp [findSlotIdx])
  | cons of rest ih =>
    intro i h
    by_cases hp : p of
    · simp [findSlotIdx, hp] at h
      subst h
      exact ⟨of, rfl, hp⟩
    · simp [findSlotIdx, hp] at h
      obtain ⟨j, hj, hji⟩ := h
      obtain ⟨of2, hof2, hp2⟩ := ih hj
      exact ⟨of2, by simpa [← hji] using hof2, hp2⟩

theorem findSlotIdx_isSome_iff {p : Option Frame → Bool} :
    ∀ {l : List (Option Frame)}, (findSlotIdx p l).isSome = true ↔ ∃ of ∈ l, p of = true := by
  intro l
  induction l with
  | nil => simp [findSlotIdx]
  | cons of rest ih =>
    by_cases hp : p of
    · simp [findSlotIdx, hp]
    · simp [findSlotIdx, hp, ih]

theorem findSlotIdx_none {p : Option Frame → Bool} {l : List (Option Frame)}
    (h : findSlotIdx p l = none) : ∀ of ∈ l, ¬ p of = true := by
  intro of hof hp
  have : (findSlotIdx p l).isSome = true := findSlotIdx_isSome_iff.mpr ⟨of, hof, hp⟩
  rw [h] at this
  exact Bool.noConfusion this

/-! ### `argmin` / `argmax` -/

theorem argminAux_some {p : Frame → Bool} {key : Frame → Nat} :
    ∀ {l : List (Option Frame)} {ik : Nat × Nat}, argminAux p key l = some ik →
      ∃ f, l.get? ik.1 = some (some f) ∧ p f = true ∧ key f = ik.2 := by
  intro l
  induction l with
  | nil => intro ik h; exact absurd h (by simp [argminAux])
  | cons of rest ih =>
    intro ik h
    cases of with
    | none =>
      cases hr : argminAux p key rest with
      | none => simp only [argminAux, hr] at h; exact absurd h (by simp)
      | some jk =>
        simp only [argminAux, hr] at h
        simp only [Option.some.injEq] at h
        obtain ⟨f, hf, hp, hk⟩ := ih hr
        exact ⟨f, by rw [← h]; simpa using hf, hp, by simp [← h, hk]⟩
    | some g =>
      by_cases hp : p g
      · cases hr : argminAux p key rest with
        | none =>
          simp only [argminAux, hr] at h
          rw [if_pos hp] at h
          simp only [Option.some.injEq] at h
          exact ⟨g, by simp [← h], hp, by simp [← h]⟩
        | some jk =>
          simp only [argminAux, hr] at h
          rw [if_pos hp] at h
          by_cases hle : key g ≤ jk.2
          · rw [if_pos hle] at h
            simp only [Option.some.injEq] at h
            exact ⟨g, by simp [← h], hp, by simp [← h]⟩
          · rw [if_neg hle] at h
            simp only [Option.some.injEq] at h
            obtain ⟨f, hf, hpf, hk⟩ := ih hr
            exact ⟨f, by rw [← h]; simpa using hf, hpf, by simp [← h, hk]⟩
      · cases hr : argminAux p key rest with
        | none =>
          simp only [argminAux, hr] at h
          rw [if_neg hp] at h
          exact absurd h (by simp)
        | some jk =>
          simp only [argminAux, hr] at h
          rw [if_neg hp] at h
          simp only [Option.some.injEq] at h
          obtain ⟨f, hf, hpf, hk⟩ := ih hr
          exact ⟨f, by rw [← h]; simpa using hf, hpf, by simp [← h, hk]⟩

theorem argminAux_isSome {p : Frame → Bool} {key : Frame → Nat} :
    ∀ {l : List (Option Frame)}, (∃ f, some f ∈ l ∧ p f = true) →
      (argminAux p key l).isSome = true := by
  intro l
  induction l with
  | nil => rintro ⟨f, hf, -⟩; simp at hf
  | cons of rest ih =>
    rintro ⟨f, hf, hp⟩
    rcases List.mem_cons.mp hf with hhead | htail
    · subst hhead
      cases hr : argminAux p key rest with
      | none => simp only [argminAux, hr, if_pos hp]; rfl
      | some jk =>
        simp only [argminAux, hr, if_pos hp]
        split <;> rfl
    · have hrest := ih ⟨f, htail, hp⟩
      cases hr : argminAux p key rest with
      | none => rw [hr] at hrest; exact Bool.noConfusion hrest
      | some jk =>
        cases of with
        | none => simp only [argminAux, hr]; rfl
        | some g =>
          simp only [argminAux, hr]
          by_cases hpg : p g
          · rw [if_pos hpg]; split <;> rfl
          · rw [if_neg hpg]; rfl

theorem argmaxAux_some {p : Frame → Bool} {key : Frame → Nat} :
    ∀ {l : List (Option Frame)} {ik : Nat × Nat}, argmaxAux p key l = some ik →
      ∃ f, l.get? ik.1 = some (some f) ∧ p f = true ∧ key f = ik.2 := by
  intro l
  induction l with
  | nil => intro ik h; exact absurd h (by simp [argmaxAux])
  | cons of rest ih =>
    intro ik h
    cases of with
    | none =>
      cases hr : argmaxAux p key rest with
      | none => simp only [argmaxAux, hr] at h; exact absurd h (by simp)
      | some jk =>
        simp only [argmaxAux, hr] at h
        simp only [Option.some.injEq] at h
        obtain ⟨f, hf, hp, hk⟩ := ih hr
        exact ⟨f, by rw [← h]; simpa using hf, hp, by simp [← h, hk]⟩
    | some g =>
      by_cases hp : p g
      · cases hr : argmaxAux p key rest with
        | none =>
          simp only [argmaxAux, hr] at h
          rw [if_pos hp] at h
          simp only [Option.some.injEq] at h
          exact ⟨g, by simp [← h], hp, by simp [← h]⟩
        | some jk =>
          simp only [argmaxAux, hr] at h
          rw [if_pos hp] at h
          by_cases hle : jk.2 ≤ key g
          · rw [if_pos hle] at h
            simp only [Option.some.injEq] at h
            exact ⟨g, by simp [← h], hp, by simp [← h]⟩
          · rw [if_neg hle] at h
            simp only [Option.some.injEq] at h
            obtain ⟨f, hf, hpf, hk⟩ := ih hr
            exact ⟨f, by rw [← h]; simpa using hf, hpf, by simp [← h, hk]⟩
      · cases hr : argmaxAux p key rest with
        | none =>
          simp only [argmaxAux, hr] at h
          rw [if_neg hp] at h
          exact absurd h (by simp)
        | some jk =>
          simp only [argmaxAux, hr] at h
          rw [if_neg hp] at h
          simp only [Option.some.injEq] at h
          obtain ⟨f, hf, hpf, hk⟩ := ih hr
          exact ⟨f, by rw [← h]; simpa using hf, hpf, by simp [← h, hk]⟩

theorem argmaxAux_isSome {p : Frame → Bool} {key : Frame → Nat} :
    ∀ {l : List (Option Frame)}, (∃ f, some f ∈ l ∧ p f = true) →
      (argmaxAux p key l).isSome = true := by
  intro l
  induction l with
  | nil => rintro ⟨f, hf, -⟩; simp at hf
  | cons of rest ih =>
    rintro ⟨f, hf, hp⟩
    rcases List.mem_cons.mp hf with hhead | htail
    · subst hhead
      cases hr : argmaxAux p key rest with
      | none => simp only [argmaxAux, hr, if_pos hp]; rfl
      | some jk =>
        simp only [argmaxAux, hr, if_pos hp]
        split <;> rfl
    · have hrest := ih ⟨f, htail, hp⟩
      cases hr : argmaxAux p key rest with
      | none => rw [hr] at hrest; exact Bool.noConfusion hrest
      | some jk =>
        cases of with
        | none => simp only [argmaxAux, hr]; rfl
        | some g =>
          simp only [argmaxAux, hr]
          by_cases hpg : p g
          · rw [if_pos hpg]; split <;> rfl
          · rw [if_neg hpg]; rfl

theorem argminIdx_lt {p : Frame → Bool} {key : Frame → Nat} {mem : List (Option Frame)}
    (hex : ∃ f, some f ∈ mem ∧ p f = true) :
    (argminIdx p key mem).getD 0 < mem.length := by
  have hs := @argminAux_isSome p key mem hex
  cases hik : argminAux p key mem with
  | none => rw [hik] at hs; exact Bool.noConfusion hs
  | some ik =>
    obtain ⟨f, hf, -, -⟩ := argminAux_some hik
    have := get?_lt hf
    simpa [argminIdx, hik] using this

theorem argmaxIdx_isSome {p : Frame → Bool} {key : Frame → Nat} {mem : List (Option Frame)}
    (hex : ∃ f, some f ∈ mem ∧ p f = true) :
    (argmaxIdx p key mem).isSome = true := by
  have hs := @argmaxAux_isSome p key mem hex
  cases hik : argmaxAux p key mem with
  | none => rw [hik] at hs; exact Bool.noConfusion hs
  | some ik => simp [argmaxIdx, hik]

theorem argmaxIdx_lt_of_eq {p : Frame → Bool} {key : Frame → Nat} {mem : List (Option Frame)}
    {i : Nat} (h : argmaxIdx p key mem = some i) : i < mem.length := by
  cases hik : argmaxAux p key mem with
  | none => rw [argmaxIdx, hik] at h; exact absurd h (by simp)
  | some ik =>
    rw [argmaxIdx, hik] at h
    simp at h
    obtain ⟨f, hf, -, -⟩ := argmaxAux_some hik
    have := get?_lt hf
    omega

/-! ### Clock scan facts -/

/-- Occupied slots whose reference bit is set. -/
def countRef (mem : List (Option Frame)) : Nat :=
  mem.countP (fun of =>
    match of with
    | some f => decide (f.ref_bit = 1)
    | none => false)

theorem clockScan_length : ∀ (fuel : Nat) (mem : List (Option Frame)) (hand blocks : Nat),
    ((clockScan false fuel mem hand blocks).2.1).length = mem.length := by
  intro fuel
  induction fuel with
  | zero => intro mem hand blocks; rfl
  | succ n ih =>
    intro mem hand blocks
    rw [clockScan]
    cases h : mem.get? hand with
    | none => rfl
    | some of =>
      cases of with
      | none => rfl
      | some f =>
        dsimp only
        by_cases hb : f.ref_bit = 1
        · rw [if_pos hb]
          rw [ih]
          simp
        · rw [if_neg hb]

theorem clockScan_get? : ∀ (fuel : Nat) (mem : List (Option Frame)) (hand blocks i : Nat),
    ((clockScan false fuel mem hand blocks).2.1).get? i = mem.get? i ∨
    ∃ f, mem.get? i = some (some f) ∧
      ((clockScan false fuel mem hand blocks).2.1).get? i = some (some { f with ref_bit := 0 }) := by
  intro fuel
  induction fuel with
  | zero => intro mem hand blocks i; left; rfl
  | succ n ih =>
    intro mem hand blocks i
    rw [clockScan]
    cases h : mem.get? hand with
    | none => left; rfl
    | some of =>
      cases of with
      | none => left; rfl
      | some f =>
        dsimp only
        by_cases hb : f.ref_bit = 1
        · rw [if_pos hb, if_neg (by simp : ¬ false = true)]
          rcases ih (mem.set hand (some { f with ref_bit := 0 })) ((hand + 1) % blocks) blocks i with h1 | ⟨g, hg1, hg2⟩
          · by_cases hi : hand = i
            · subst hi
              right
              refine ⟨f, h, ?_⟩
              rw [h1, get?_set_self _ _ _ (get?_lt h)]
            · left
              rw [h1, List.get?_set_ne _ _ hi]
          · by_cases hi : hand = i
            · subst hi
              right
              rw [get?_set_self _ _ _ (get?_lt h)] at hg1
              have hge : g = { f with ref_bit := 0 } := by
                injection hg1 with h1'
                injection h1' with h2'
                exact h2'.symm
              refine ⟨f, h, ?_⟩
              rw [hg2, hge]
            · right
              rw [List.get?_set_ne _ _ hi] at hg1
              exact ⟨g, hg1, hg2⟩
        · rw [if_neg hb]
          left
          rfl

theorem clockScan_stop : ∀ (fuel : Nat) (mem : List (Option Frame)) (hand blocks v : Nat)
    (m' : List (Option Frame)) (h2 : Nat),
    clockScan false fuel mem hand blocks = (some v, m', h2) →
    ∃ f, m'.get? v = some (some f) ∧ ¬ f.ref_bit = 1 := by
  intro fuel
  induction fuel with
  | zero => intro mem hand blocks v m' h2 heq; exact absurd heq (by simp [clockScan])
  | succ n ih =>
    intro mem hand blocks v m' h2 heq
    rw [clockScan] at heq
    cases h : mem.get? hand with
    | none => rw [h] at heq; exact absurd heq (by simp)
    | some of =>
      cases of with
      | none => rw [h] at heq; exact absurd heq (by simp)
      | some f =>
        rw [h] at heq
        dsimp only at heq
        by_cases hb : f.ref_bit = 1
        · rw [if_pos hb, if_neg (by simp : ¬ false = true)] at heq
          exact ih _ _ _ _ _ _ heq
        · rw [if_neg hb] at heq
          injection heq with e1 e2
          injection e2 with e3 e4
          injection e1 with e1
          subst e1
          subst e3
          exact ⟨f, h, hb⟩

theorem clockScan_some_lt : ∀ (fuel : Nat) (mem : List (Option Frame)) (hand blocks v : Nat)
    (m' : List (Option Frame)) (h2 : Nat), hand < blocks →
    clockScan false fuel mem hand blocks = (some v, m', h2) → v < blocks := by
  intro fuel
  induction fuel with
  | zero => intro mem hand blocks v m' h2 _ heq; exact absurd heq (by simp [clockScan])
  | succ n ih =>
    intro mem hand blocks v m' h2 hh heq
    rw [clockScan] at heq
    cases h : mem.get? hand with
    | none => rw [h] at heq; exact absurd heq (by simp)
    | some of =>
      cases of with
      | none => rw [h] at heq; exact absurd heq (by simp)
      | some f =>
        rw [h] at heq
        dsimp only at heq
        by_cases hb : f.ref_bit = 1
        · rw [if_pos hb, if_neg (by simp : ¬ false = true)] at heq
          exact ih _ _ _ _ _ _ (Nat.mod_lt _ (by omega)) heq
        · rw [if_neg hb] at heq
          injection heq with e1 e2
          injection e1 with e1
          omega

theorem clockScan_isSome : ∀ (fuel : Nat) (mem : List (Option Frame)) (hand blocks : Nat),
    (∀ of ∈ mem, of.isSome = true) → mem.length = blocks → hand < blocks →
    countRef mem < fuel →
    ((clockScan false fuel mem hand blocks).1).isSome = true := by
  intro fuel
  induction fuel with
  | zero => intro mem hand blocks _ _ _ hcnt; omega
  | succ n ih =>
    intro mem hand blocks hocc hlen hh hcnt
    rw [clockScan]
    have hhl : hand < mem.length := by omega
    obtain ⟨of, h⟩ := get?_of_lt hhl
    have hof : of.isSome = true := hocc of (List.get?_mem h)
    cases of with
    | none => exact Bool.noConfusion hof
    | some f =>
      rw [h]
      dsimp only
      by_cases hb : f.ref_bit = 1
      · rw [if_pos hb, if_neg (by simp : ¬ false = true)]
        apply ih
        · intro x hx
          rcases List.mem_or_eq_of_mem_set hx with hx' | hx'
          · exact hocc x hx'
          · subst hx'; rfl
        · simp [hlen]
        · exact Nat.mod_lt _ (by omega)
        · have hgl : mem.get ⟨hand, hhl⟩ = some f := by
            rw [List.get?_eq_get hhl] at h
            injection h
          have hcset := List.countP_set (fun of =>
            match of with
            | some f => decide (f.ref_bit = 1)
            | none => false) mem hand (some { f with ref_bit := 0 }) hhl
          have hmemh : mem[hand] = some f := hgl
          rw [hmemh] at hcset
          have hone : 0 < countRef mem := by
            apply List.countP_pos.mpr
            exact ⟨some f, List.get?_mem h, by simp [hb]⟩
          have : countRef (mem.set hand (some { f with ref_bit := 0 })) =
              countRef mem - 1 := by
            unfold countRef
            rw [hcset]
            simp [hb]
          omega
      · rw [if_neg hb]
        rfl

/-- Validity of the victim index chosen by `_get_victim` on an occupied table
of the configured size: it addresses an existing slot, and eviction (only the
clock branch mutates) preserves the table length. -/
theorem getVictim_valid (st : AlgoState) (fut : Option (List Nat))
    (hocc : ∀ of ∈ st.memory, of.isSome = true)
    (hlen : st.memory.length = st.memory_blocks)
    (hpos : 0 < st.memory.length)
    (hhand : st.clock_hand < st.memory_blocks) :
    (st.getVictim fut).1 < st.memory.length ∧ (st.getVictim fut).2.1.length = st.memory.length := by
  obtain ⟨of0, h0⟩ := get?_of_lt hpos
  have hof0 : of0.isSome = true := hocc of0 (List.get?_mem h0)
  obtain ⟨f0, rfl⟩ : ∃ f, of0 = some f := by
    cases of0 with
    | none => exact Bool.noConfusion hof0
    | some f => exact ⟨f, rfl⟩
  have hex : ∃ f, some f ∈ st.memory := ⟨f0, List.get?_mem h0⟩
  have hall : st.memory.all (fun of => of.isNone) = false := by
    cases hq : st.memory.all (fun of => of.isNone) with
    | false => rfl
    | true =>
      have := List.all_eq_true.mp hq _ (List.get?_mem h0)
      simp at this
  unfold AlgoState.getVictim
  rw [hall]
  simp only [Bool.false_eq_true, if_false]
  have hexT : ∃ f, some f ∈ st.memory ∧ (fun _ : Frame => true) f = true :=
    ⟨f0, List.get?_mem h0, rfl⟩
  cases hname : st.name with
  | FIFO =>
    constructor
    · exact argminIdx_lt hexT
    · rfl
  | LRU =>
    constructor
    · exact argminIdx_lt hexT
    · rfl
  | OPT =>
    constructor
    · dsimp only
      unfold getOptVictim
      cases fut with
      | none => simpa using hpos
      | some l =>
        dsimp only
        cases hmx : argmaxIdx (fun _ => true) (fun f => futureDist l f.page) st.memory with
        | none =>
          have hS := @argmaxIdx_isSome (fun _ => true) (fun f => futureDist l f.page) st.memory hexT
          rw [hmx] at hS
          exact Bool.noConfusion hS
        | some i =>
          have hlt := argmaxIdx_lt_of_eq hmx
          simpa using hlt
    · rfl
  | LINUX =>
    have hscan := clockScan_isSome (st.memory_blocks * 2 + 1) st.memory st.clock_hand st.memory_blocks
      hocc hlen hhand (by
        have : countRef st.memory ≤ st.memory.length := List.countP_le_length _
        omega)
    unfold AlgoState.runClockAlgorithm
    rcases hsc : clockScan false (st.memory_blocks * 2 + 1) st.memory st.clock_hand st.memory_blocks with ⟨v?, m', h2⟩
    cases v? with
    | none => rw [hsc] at hscan; exact Bool.noConfusion hscan
    | some v =>
      dsimp only
      have hvlt := clockScan_some_lt _ _ _ _ _ _ _ hhand hsc
      have hml : m'.length = st.memory.length := by
        have hL := clockScan_length (st.memory_blocks * 2 + 1) st.memory st.clock_hand st.memory_blocks
        rw [hsc] at hL
        exact hL
      exact ⟨by omega, by simpa using hml⟩
  | LINUX_NG =>
    constructor
    · by_cases hInact : st.memory.any (fun of =>
        match of with
        | some f => !f.is_active_list
        | none => false) = true
      · rw [hInact]
        simp only [if_true]
        obtain ⟨of1, hof1, hp1⟩ := List.any_eq_true.mp hInact
        obtain ⟨f1, rfl⟩ : ∃ f, of1 = some f := by
          cases of1 with
          | none => exact absurd hp1 (by simp)
          | some f => exact ⟨f, rfl⟩
        exact argminIdx_lt ⟨f1, hof1, hp1⟩
      · rw [Bool.not_eq_true] at hInact
        rw [hInact]
        simp only [Bool.false_eq_true, if_false]
        exact argminIdx_lt hexT
    · rfl

/-! ### `process` facts -/

theorem handleHit_status (st : AlgoState) (idx : Nat) (op : Op) (now : Nat) :
    (st.handleHit idx op now).1.status = Status.Hit := rfl

theorem handleMiss_status (st : AlgoState) (page : Nat) (op : Op) (now : Nat)
    (fut : Option (List Nat)) (pid : Option Nat) :
    (st.handleMiss page op now fut pid).1.status = Status.Miss := by
  unfold AlgoState.handleMiss
  dsimp only
  split
  · rfl
  · split
    · rfl
    · rfl

theorem process_total_count (st : AlgoState) (page : Nat) (op : Op) (now : Nat)
    (fut : Option (List Nat)) (pid : Option Nat) :
    ((st.process page op now fut pid).2).total_count = st.total_count + 1 := by
  unfold AlgoState.process AlgoState.handleHit AlgoState.handleMiss
  dsimp only
  split
  · rfl
  · split
    · rfl
    · split
      · rfl
      · rfl

theorem process_counters (st : AlgoState) (page : Nat) (op : Op) (now : Nat)
    (fut : Option (List Nat)) (pid : Option Nat) :
    ((st.process page op now fut pid).1.status = Status.Hit ∧
      (st.process page op now fut pid).2.miss_count = st.miss_count ∧
      (st.process page op now fut pid).2.load_counter = st.load_counter) ∨
    ((st.process page op now fut pid).1.status = Status.Miss ∧
      (st.process page op now fut pid).2.miss_count = st.miss_count + 1 ∧
      (st.process page op now fut pid).2.load_counter = st.load_counter + 1) := by
  unfold AlgoState.process AlgoState.handleHit AlgoState.handleMiss
  dsimp only
  split
  · exact Or.inl ⟨rfl, rfl, rfl⟩
  · split
    · exact Or.inr ⟨rfl, rfl, rfl⟩
    · split
      · exact Or.inr ⟨rfl, rfl, rfl⟩
      · exact Or.inr ⟨rfl, rfl, rfl⟩

theorem process_name (st : AlgoState) (page : Nat) (op : Op) (now : Nat)
    (fut : Option (List Nat)) (pid : Option Nat) :
    ((st.process page op now fut pid).2).name = st.name := by
  unfold AlgoState.process AlgoState.handleHit AlgoState.handleMiss
  dsimp only
  split
  · rfl
  · split
    · rfl
    · split
      · rfl
      · rfl

/-- `_get_victim` ignores the statistics counters. -/
theorem getVictim_total_irrel (st : AlgoState) (k : Nat) (fut : Option (List Nat)) :
    (({ st with total_count := k } : AlgoState).getVictim fut) = st.getVictim fut := by
  unfold AlgoState.getVictim AlgoState.runClockAlgorithm
  dsimp only
  by_cases hall : st.memory.all (fun of => of.isNone) = true
  · rw [if_pos hall, if_pos hall]
  · rw [if_neg hall, if_neg hall]
    cases st.name with
    | LINUX =>
      rcases hsc : clockScan false (st.memory_blocks * 2 + 1) st.memory st.clock_hand st.memory_blocks with ⟨v?, m, h⟩
      cases v? <;> rfl
    | FIFO => rfl
    | LRU => rfl
    | OPT => rfl
    | LINUX_NG => rfl

/-- The frame built for a miss. -/
def missFrame (st : AlgoState) (page : Nat) (op : Op) (now : Nat) (pid : Option Nat) : Frame :=
  { page := page
    pid := pid
    loaded_at := st.load_counter + 1
    last_access := now
    ref_bit := 1
    dirty := op = .W
    is_active_list := false }

/-- On a miss (with a well-formed table) the new frame is stored in some
slot, and its `loaded_at` is the incremented load counter. -/
theorem process_miss_placement (st : AlgoState) (page : Nat) (op : Op) (now : Nat)
    (fut : Option (List Nat)) (pid : Option Nat)
    (hlen : st.memory.length = st.memory_blocks)
    (hpos : 0 < st.memory.length)
    (hhand : st.clock_hand < st.memory_blocks)
    (hmiss : (st.process page op now fut pid).1.status = Status.Miss) :
    ∃ i, ((st.process page op now fut pid).2.memory).get? i =
      some (some (missFrame st page op now pid)) := by
  unfold AlgoState.process at hmiss ⊢
  dsimp only at hmiss ⊢
  rcases hfind : findSlotIdx (hitPred page pid) st.memory with - | idx
  case some =>
    rw [hfind] at hmiss
    rw [handleHit_status] at hmiss
    exact absurd hmiss (by simp)
  case none =>
    dsimp only
    unfold AlgoState.handleMiss
    dsimp only
    rw [getVictim_total_irrel]
    rcases hfree : findSlotIdx (fun of => of.isNone) st.memory with - | t
    case some =>
      obtain ⟨of, hof, -⟩ := findSlotIdx_some hfree
      have ht := get?_lt hof
      exact ⟨t, get?_set_self _ _ _ ht⟩
    case none =>
      have hocc : ∀ of ∈ st.memory, of.isSome = true := by
        intro of hof
        have hnp := findSlotIdx_none hfree of hof
        cases of with
        | none => exact absurd rfl hnp
        | some f => rfl
      obtain ⟨hvlt, hvlen⟩ := getVictim_valid st fut hocc hlen hpos hhand
      rcases hget : (st.getVictim fut).2.1.get? (st.getVictim fut).1 with - | of
      case none =>
        refine ⟨(st.getVictim fut).1, ?_⟩
        dsimp only
        exact get?_set_self _ _ _ (by omega)
      case some =>
        cases of with
        | none =>
          refine ⟨(st.getVictim fut).1, ?_⟩
          dsimp only
          exact get?_set_self _ _ _ (by omega)
        | some victim =>
          refine ⟨(st.getVictim fut).1, ?_⟩
          dsimp only
          exact get?_set_self _ _ _ (by omega)

/-! ### Counting frames through slot updates -/

theorem countP_set_add {α : Type} (p : α → Bool) :
    ∀ {l : List α} {i : Nat} {u : α}, l.get? i = some u → ∀ (v : α),
      (l.set i v).countP p + (if p u then 1 else 0) = l.countP p + (if p v then 1 else 0) := by
  intro l
  induction l with
  | nil => intro i u h v; exact absurd h (by simp)
  | cons a t ih =>
    intro i u h v
    cases i with
    | zero =>
      have hau : a = u := by injection h
      subst hau
      simp only [List.set, List.countP_cons]
      by_cases hv : p v = true <;> by_cases hu : p a = true <;> simp [hv, hu]
    | succ n =>
      have ht : t.get? n = some u := h
      simp only [List.set, List.countP_cons]
      have := ih ht v
      by_cases ha : p a = true <;> simp [ha] <;> omega

theorem countP_updateFrame_eq (p : Option Frame → Bool) (mem : List (Option Frame)) (i : Nat)
    (g : Frame → Frame) (hg : ∀ f, p (some (g f)) = p (some f)) :
    (updateFrame mem i g).countP p = mem.countP p := by
  unfold updateFrame
  cases h : mem.get? i with
  | none => rfl
  | some of =>
    cases of with
    | none => rfl
    | some f =>
      dsimp only
      have hadd := countP_set_add p h (some (g f))
      rw [hg f] at hadd
      omega

theorem countP_updateFrame_le (p : Option Frame → Bool) (mem : List (Option Frame)) (i : Nat)
    (g : Frame → Frame) :
    (updateFrame mem i g).countP p ≤ mem.countP p + 1 := by
  unfold updateFrame
  cases h : mem.get? i with
  | none => dsimp only; omega
  | some of =>
    cases of with
    | none => dsimp only; omega
    | some f =>
      dsimp only
      have hadd := countP_set_add p h (some (g f))
      by_cases h1 : p (some f) = true <;> by_cases h2 : p (some (g f)) = true <;>
        simp [h1, h2] at hadd <;> omega

theorem activeCount_demote {mem : List (Option Frame)} {i : Nat} {f : Frame}
    (hf : mem.get? i = some (some f)) (hact : f.is_active_list = true) :
    activeCount (updateFrame mem i (fun f => { f with is_active_list := false })) + 1 =
      activeCount mem := by
  unfold updateFrame activeCount
  rw [hf]
  dsimp only
  have hadd := countP_set_add (fun of =>
    match of with
    | some f => f.is_active_list
    | none => false) hf (some ({ f with is_active_list := false }))
  simp only [hact, if_true] at hadd
  simpa using hadd

theorem activeCount_balance (mem : List (Option Frame)) (blocks : Nat)
    (h : activeCount mem ≤ blocks / 2 + 1) :
    activeCount (balanceLists mem blocks) ≤ blocks / 2 := by
  unfold balanceLists
  by_cases hc : blocks / 2 < activeCount mem
  · rw [if_pos hc]
    have hpos : 0 < activeCount mem := by omega
    obtain ⟨of1, hof1, hp1⟩ := List.countP_pos.mp hpos
    obtain ⟨f1, rfl⟩ : ∃ g, of1 = some g := by
      cases of1 with
      | none => exact absurd hp1 (by simp)
      | some g => exact ⟨g, rfl⟩
    have hp1' : f1.is_active_list = true := hp1
    have hs := @argminAux_isSome (fun f => f.is_active_list)
      (fun f => f.last_access) mem ⟨f1, hof1, hp1'⟩
    cases haux : argminAux (fun f => f.is_active_list) (fun f => f.last_access) mem with
    | none => rw [haux] at hs; exact Bool.noConfusion hs
    | some ik =>
      have hidx : argminIdx (fun f => f.is_active_list) (fun f => f.last_access) mem = some ik.1 := by
        simp [argminIdx, haux]
      rw [hidx]
      dsimp only
      obtain ⟨f2, hf2, hp2, -⟩ := argminAux_some haux
      have hd := activeCount_demote hf2 hp2
      omega
  · rw [if_neg hc]
    omega

theorem activeCount_replicate (n : Nat) : activeCount (List.replicate n none) = 0 := by
  induction n with
  | zero => rfl
  | succ k ih => simp [List.replicate, activeCount, List.countP_cons] at ih ⊢

/-- `_get_victim` leaves the table untouched for every non-clock policy. -/
theorem getVictim_memory_eq (st : AlgoState) (fut : Option (List Nat))
    (h : st.name ≠ AlgoName.LINUX) :
    (st.getVictim fut).2.1 = st.memory := by
  unfold AlgoState.getVictim
  by_cases hall : st.memory.all (fun of => of.isNone) = true
  · rw [if_pos hall]
  · rw [if_neg hall]
    cases hn : st.name with
    | LINUX => exact absurd hn h
    | FIFO => rfl
    | LRU => rfl
    | OPT => rfl
    | LINUX_NG => rfl

/-! ### Hit characterisation -/

theorem hitPred_some_iff (page : Nat) (a : Nat) (f : Frame) :
    hitPred page (some a) (some f) = true ↔ f.page = page ∧ f.pid = some a := by
  unfold hitPred
  simp

/-- With a non-`None` pid the lookup of `process` succeeds exactly when some
slot holds a frame with that `(pid, page)` pair. -/
theorem process_hit_iff (st : AlgoState) (page : Nat) (op : Op) (now : Nat)
    (fut : Option (List Nat)) (a : Nat) :
    (st.process page op now fut (some a)).1.status = Status.Hit ↔
      ∃ f, some f ∈ st.memory ∧ f.page = page ∧ f.pid = some a := by
  unfold AlgoState.process
  dsimp only
  cases h : findSlotIdx (hitPred page (some a)) st.memory with
  | some idx =>
    dsimp only
    constructor
    · intro _
      obtain ⟨of, hof, hp⟩ := findSlotIdx_some h
      cases of with
      | none => exact absurd hp (by simp [hitPred])
      | some f =>
        exact ⟨f, List.get?_mem hof, (hitPred_some_iff page a f).mp hp⟩
    · intro _
      exact handleHit_status _ _ _ _
  | none =>
    dsimp only
    constructor
    · intro hst
      rw [handleMiss_status] at hst
      exact absurd hst (by simp)
    · rintro ⟨f, hf, hpage, hpid⟩
      exact absurd ((hitPred_some_iff page a f).mpr ⟨hpage, hpid⟩) (findSlotIdx_none h _ hf)

/-! ### `step` facts -/

theorem runAlgos_mem (insts : List Inst) (idx page : Nat) (op : Op) (now : Nat) (pid : Option Nat) :
    ∀ (states : List AlgoState) (fut : Option (List Nat)) (a2 : AlgoState),
      a2 ∈ (runAlgos insts idx page op now pid states fut).2.1 →
      ∃ a ∈ states, ∃ f, a2 = (a.process page op now f pid).2 := by
  intro states
  induction states with
  | nil => intro fut a2 h; simp [runAlgos] at h
  | cons a rest ih =>
    intro fut a2 h
    rw [runAlgos] at h
    dsimp only at h
    rcases List.mem_cons.mp h with h1 | h2
    · exact ⟨a, List.mem_cons_self a rest, _, h1⟩
    · obtain ⟨a', ha', f, hf⟩ := ih _ _ h2
      exact ⟨a', List.mem_cons_of_mem _ ha', f, hf⟩

theorem step_at_end (pm : PageManager) (h : pm.instructions.length ≤ pm.current_inst_idx) :
    pm.step = (none, pm) := by
  unfold PageManager.step
  rw [if_pos h]

theorem step_state_mid (pm : PageManager) (h : pm.current_inst_idx < pm.instructions.length) :
    ∃ inst, pm.instructions.get? pm.current_inst_idx = some inst ∧
      (pm.step).2 = { pm with
        current_time := pm.current_time + 1
        current_inst_idx := pm.current_inst_idx + 1
        algos := (runAlgos pm.instructions pm.current_inst_idx (inst.1 / 10) inst.2.1
          (pm.current_time + 1) inst.2.2 pm.algos none).2.1 } := by
  obtain ⟨inst, hi⟩ := get?_of_lt h
  refine ⟨inst, hi, ?_⟩
  unfold PageManager.step
  rw [if_neg (by omega), hi]

/-- Per-policy synchronisation invariant: every policy has processed exactly
the trace prefix consumed so far, with misses bounded by accesses. -/
def Synced (pm : PageManager) : Prop :=
  ∀ a ∈ pm.algos, a.total_count = pm.current_inst_idx ∧ a.miss_count ≤ a.total_count

theorem synced_step (pm : PageManager) (h : Synced pm) : Synced pm.step.2 := by
  by_cases hend : pm.instructions.length ≤ pm.current_inst_idx
  · rw [step_at_end pm hend]
    exact h
  · obtain ⟨inst, hi, hstate⟩ := step_state_mid pm (by omega)
    rw [hstate]
    intro a2 ha2
    dsimp only at ha2 ⊢
    obtain ⟨a, ha, f, hf⟩ := runAlgos_mem _ _ _ _ _ _ _ _ _ ha2
    obtain ⟨ht, hm⟩ := h a ha
    subst hf
    refine ⟨?_, ?_⟩
    · rw [process_total_count, ht]
    · rcases process_counters a (inst.1 / 10) inst.2.1 (pm.current_time + 1) f inst.2.2 with
        ⟨-, hmc, -⟩ | ⟨-, hmc, -⟩ <;> rw [process_total_count, hmc] <;> omega

theorem step_cursor (pm : PageManager) :
    (pm.step).2.current_inst_idx =
      if pm.instructions.length ≤ pm.current_inst_idx then pm.current_inst_idx
      else pm.current_inst_idx + 1 := by
  by_cases hend : pm.instructions.length ≤ pm.current_inst_idx
  · rw [step_at_end pm hend, if_pos hend]
  · obtain ⟨inst, -, hstate⟩ := step_state_mid pm (by omega)
    rw [hstate, if_neg hend]

theorem step_instructions (pm : PageManager) :
    (pm.step).2.instructions = pm.instructions := by
  by_cases hend : pm.instructions.length ≤ pm.current_inst_idx
  · rw [step_at_end pm hend]
  · obtain ⟨inst, -, hstate⟩ := step_state_mid pm (by omega)
    rw [hstate]

theorem stepN_instructions (pm : PageManager) : ∀ n, (stepN n pm).instructions = pm.instructions := by
  intro n
  induction n with
  | zero => rfl
  | succ k ih => rw [stepN, step_instructions, ih]

theorem synced_stepN (pm : PageManager) (h : Synced pm) : ∀ n, Synced (stepN n pm) := by
  intro n
  induction n with
  | zero => exact h
  | succ k ih => exact synced_step _ ih

theorem stepN_cursor (pm : PageManager) (h0 : pm.current_inst_idx = 0) :
    ∀ n, (stepN n pm).current_inst_idx = min n pm.instructions.length := by
  intro n
  induction n with
  | zero => simpa using h0
  | succ k ih =>
    rw [stepN, step_cursor, stepN_instructions, ih]
    by_cases hk : pm.instructions.length ≤ min k pm.instructions.length
    · rw [if_pos hk]
      omega
    · rw [if_neg hk]
      omega

theorem genSingle_length (draws : Nat → GenDraw) (n : Nat) : (genSingle draws n).length = n := by
  simp [genSingle]

/-- In every non-multi mode (including the Belady mode), `reset()` installs a
freshly generated random single-process trace and re-initialised policies. -/
theorem reset_not_multi (rng : Rng) (pm : PageManager) (h : ¬ pm.mode = "multi") :
    PageManager.reset rng pm = Except.ok (PageManager.resetAlgos
      { pm with current_inst_idx := 0
                current_time := 0
                view_algo_name := AlgoName.FIFO
                instructions := genSingle rng.single pm.total_instructions }) := by
  unfold PageManager.reset generateInstructions
  rw [if_neg h]
  rfl

theorem reset_ok_state (rng : Rng) (pm pm' : PageManager)
    (h : PageManager.reset rng pm = Except.ok pm') :
    pm'.current_inst_idx = 0 ∧ pm'.current_time = 0 ∧ pm'.view_algo_name = AlgoName.FIFO ∧
    pm'.algos = pm.algos.map (fun a => AlgoState.init a.name pm.memory_blocks) ∧
    ∃ insts, generateInstructions rng pm = Except.ok insts ∧ pm'.instructions = insts := by
  unfold PageManager.reset at h
  cases hg : generateInstructions rng pm with
  | error e => rw [hg] at h; exact absurd h (by simp [Except.map])
  | ok l =>
    rw [hg] at h
    simp only [Except.map] at h
    injection h with h
    subst h
    exact ⟨rfl, rfl, rfl, rfl, l, rfl, rfl⟩

theorem synced_of_mapped (pm' : PageManager) (h0 : pm'.current_inst_idx = 0)
    (L : List AlgoState) (mb : Nat)
    (hL : pm'.algos = L.map (fun a => AlgoState.init a.name mb)) : Synced pm' := by
  intro a hmem
  rw [hL] at hmem
  obtain ⟨b, -, rfl⟩ := List.mem_map.mp hmem
  exact ⟨by rw [h0]; rfl, by rfl⟩

/-! ### Page-only congruences (ownership-blindness of OPT) -/

theorem argmaxAux_page_congr (fut : List Nat) :
    ∀ {m1 m2 : List (Option Frame)},
      m1.map (Option.map Frame.page) = m2.map (Option.map Frame.page) →
      argmaxAux (fun _ => true) (fun f => futureDist fut f.page) m1 =
      argmaxAux (fun _ => true) (fun f => futureDist fut f.page) m2 := by
  intro m1
  induction m1 with
  | nil =>
    intro m2 h
    have h2 : m2 = [] := by
      cases m2 with
      | nil => rfl
      | cons o t => simp at h
    rw [h2]
  | cons o1 t1 ih =>
    intro m2 h
    cases m2 with
    | nil => simp at h
    | cons o2 t2 =>
      simp only [List.map_cons, List.cons.injEq] at h
      obtain ⟨h1, h2⟩ := h
      have ht := ih h2
      cases o1 with
      | none =>
        cases o2 with
        | none => rw [argmaxAux, argmaxAux, ht]
        | some f2 => simp at h1
      | some f1 =>
        cases o2 with
        | none => simp at h1
        | some f2 =>
          have hpage : f1.page = f2.page := by simpa using h1
          rw [argmaxAux, argmaxAux, ht, hpage]

theorem getOptVictim_page_congr (fut : Option (List Nat)) {m1 m2 : List (Option Frame)}
    (h : m1.map (Option.map Frame.page) = m2.map (Option.map Frame.page)) :
    getOptVictim fut m1 = getOptVictim fut m2 := by
  unfold getOptVictim
  cases fut with
  | none => rfl
  | some l =>
    dsimp only
    unfold argmaxIdx
    rw [argmaxAux_page_congr l h]

theorem pages_map_congr : ∀ {l1 l2 : List Inst},
    l1.map (fun t => t.1) = l2.map (fun t => t.1) →
    l1.map (fun t => t.1 / 10) = l2.map (fun t => t.1 / 10) := by
  intro l1
  induction l1 with
  | nil =>
    intro l2 h
    cases l2 with
    | nil => rfl
    | cons a t => simp at h
  | cons a t ih =>
    intro l2 h
    cases l2 with
    | nil => simp at h
    | cons b t2 =>
      simp only [List.map_cons, List.cons.injEq] at h
      obtain ⟨h1, h2⟩ := h
      simp only [List.map_cons, h1, ih h2]

theorem futurePagesOf_congr {l1 l2 : List Inst} (i : Nat)
    (h : l1.map (fun t => t.1) = l2.map (fun t => t.1)) :
    futurePagesOf l1 i = futurePagesOf l2 i := by
  unfold futurePagesOf
  refine pages_map_congr ?_
  rw [List.map_drop, List.map_drop, h]

/-! ## Claim theorems -/

set_option maxRecDepth 100000

/-- FIFO miss count observed after constructing a simulator, switching it to
the Belady fixture with the fixture loader, and replaying all 12 steps. -/
def beladyFIFOMisses (blocks : Nat) : Option Nat :=
  ((PageManager.init rng0 12 32 blocks "single" 1).toOption.map
    (fun pm => stepN 12 (PageManager.loadBeladySequence pm))).bind
    (fun pm => (pm.algos.find? (fun a => decide (a.name = AlgoName.FIFO))).map
      (fun a => a.miss_count))

/-- C1: replaying the fixed Belady sequence `[1,2,3,4,1,2,5,1,2,3,4,5]`
(loaded via `load_belady_sequence`) through the FIFO policy yields exactly
9 misses at table capacity 3 and exactly 10 misses at capacity 4. -/
theorem c1_belady_fifo_misses :
    beladyFIFOMisses 3 = some 9 ∧ beladyFIFOMisses 4 = some 10 := by
  constructor
  · decide
  · decide

/-- The state reached by constructing a simulator, loading the Belady
fixture, and then calling `reset()`. -/
def c2State : Except String PageManager :=
  (PageManager.init rng0 12 32 3 "single" 1).bind
    (fun pm => PageManager.reset rng0 (PageManager.loadBeladySequence pm))

/-- C2 counterexample: after `load_belady_sequence()`, `reset()` does not
reload the fixture — the trace it installs is the freshly generated random
single-process trace, which differs from the 12-entry Belady fixture. -/
theorem c2_reset_counterexample :
    (c2State.map (fun pm => pm.instructions)).toOption = some (genSingle rng0.single 12) ∧
    genSingle rng0.single 12 ≠ beladyInstructions := by
  constructor
  · decide
  · decide

/-- C2 (amended): after `load_fixed_sequence()` (mode `"BELADY"`), and in
random single mode alike, `reset()` generates a fresh single-process random
trace of the configured length — it does not reload the fixture — and
re-initialises every policy state to empty/zeroed (cursor, clock and
counters reset through `AlgoState.__init__`). -/
theorem c2_reset_amended (rng : Rng) (pm : PageManager)
    (h : pm.mode = "BELADY" ∨ pm.mode = "single") :
    PageManager.reset rng pm = Except.ok (PageManager.resetAlgos
      { pm with current_inst_idx := 0
                current_time := 0
                view_algo_name := AlgoName.FIFO
                instructions := genSingle rng.single pm.total_instructions }) ∧
    (genSingle rng.single pm.total_instructions).length = pm.total_instructions := by
  have hnm : ¬ pm.mode = "multi" := by
    rcases h with h | h <;> rw [h] <;> decide
  exact ⟨reset_not_multi rng pm hnm, genSingle_length _ _⟩

/-- A concrete simulator switched to the Belady fixture. -/
def pmBelady : PageManager :=
  PageManager.loadBeladySequence
    { total_instructions := 12
      memory_blocks := 3
      total_pages := 32
      mode := "single"
      num_processes := 1
      process_info := []
      algos := [AlgoState.init .FIFO 3, AlgoState.init .LRU 3, AlgoState.init .OPT 3,
                AlgoState.init .LINUX 3, AlgoState.init .LINUX_NG 3]
      current_inst_idx := 0
      current_time := 0
      view_algo_name := .FIFO
      instructions := genSingle rng0.single 12 }

/-- C2 amended witness at the concrete fixture-loaded simulator. -/
theorem c2_reset_amended_witness :
    (pmBelady.mode = "BELADY" ∨ pmBelady.mode = "single") ∧
    (PageManager.reset rng0 pmBelady = Except.ok (PageManager.resetAlgos
      { pmBelady with current_inst_idx := 0
                      current_time := 0
                      view_algo_name := AlgoName.FIFO
                      instructions := genSingle rng0.single pmBelady.total_instructions }) ∧
    (genSingle rng0.single pmBelady.total_instructions).length = pmBelady.total_instructions) :=
  ⟨Or.inl rfl, c2_reset_amended rng0 pmBelady (Or.inl rfl)⟩

/-- C3 counterexample: construction with capacity 0 succeeds and hands back
a simulator whose five policies all have zero-slot frame tables, instead of
refusing to build. -/
theorem c3_capacity_counterexample :
    ((PageManager.init rng0 5 32 0 "single" 1).map
      (fun pm => pm.algos.map (fun a => a.memory.length))).toOption = some [0, 0, 0, 0, 0] := by
  decide

/-- C3 (amended): the constructor performs no validation: in single mode it
always succeeds, for any capacity including 0 (degenerate zero-slot tables).
Multi-process construction with process count 0 does fail, but only through
the incidental `ValueError` raised by `max()` over the empty collection of
per-process sequences during trace interleaving. -/
theorem c3_construction_amended (rng : Rng) (t p c np : Nat) :
    ((PageManager.init rng t p c "single" np).toOption.isSome = true) ∧
    (PageManager.init rng t p c "multi" 0).toOption =
      (Except.error "ValueError: max() arg is an empty sequence" : Except String PageManager).toOption := by
  constructor
  · unfold PageManager.init
    rw [reset_not_multi _ _ (show ¬ ("single" : String) = "multi" by decide)]
    rfl
  · unfold PageManager.init PageManager.reset generateInstructions genMulti interleaveSequences
    simp [Except.map]

/-- C4: for every freshly constructed simulator and every number `n` of
`step()` calls, every policy's `total_count` equals the trace cursor, misses
never exceed accesses, the cursor is `min n (trace length)`, and while the
caller respects the end-of-trace contract (`n ≤` trace length) the counters
equal the number of `step()` calls. -/
theorem c4_total_accesses (rng : Rng) (t p b : Nat) (mode : String) (np : Nat)
    (pm0 : PageManager) (h : PageManager.init rng t p b mode np = Except.ok pm0) (n : Nat) :
    (∀ a ∈ (stepN n pm0).algos,
        a.total_count = (stepN n pm0).current_inst_idx ∧ a.miss_count ≤ a.total_count) ∧
    (stepN n pm0).current_inst_idx = min n pm0.instructions.length ∧
    (n ≤ pm0.instructions.length → (stepN n pm0).current_inst_idx = n) := by
  have hr := reset_ok_state rng _ pm0 (by unfold PageManager.init at h; exact h)
  obtain ⟨h0, -, -, hA, -⟩ := hr
  have hs : Synced pm0 := synced_of_mapped pm0 h0 _ _ hA
  refine ⟨synced_stepN pm0 hs n, stepN_cursor pm0 h0 n, ?_⟩
  intro hn
  rw [stepN_cursor pm0 h0 n]
  omega

/-- The concrete simulator produced by construction at capacity 3. -/
def pmSingle : PageManager :=
  { total_instructions := 12
    memory_blocks := 3
    total_pages := 32
    mode := "single"
    num_processes := 1
    process_info := []
    algos := [AlgoState.init .FIFO 3, AlgoState.init .LRU 3, AlgoState.init .OPT 3,
              AlgoState.init .LINUX 3, AlgoState.init .LINUX_NG 3]
    current_inst_idx := 0
    current_time := 0
    view_algo_name := .FIFO
    instructions := genSingle rng0.single 12 }

/-- C4 witness: the invariant instantiated after 5 steps of a concrete run. -/
theorem c4_total_accesses_witness :
    (PageManager.init rng0 12 32 3 "single" 1 = Except.ok pmSingle) ∧
    ((∀ a ∈ (stepN 5 pmSingle).algos,
        a.total_count = (stepN 5 pmSingle).current_inst_idx ∧ a.miss_count ≤ a.total_count) ∧
    (stepN 5 pmSingle).current_inst_idx = min 5 pmSingle.instructions.length ∧
    (5 ≤ pmSingle.instructions.length → (stepN 5 pmSingle).current_inst_idx = 5)) :=
  ⟨rfl, c4_total_accesses rng0 12 32 3 "single" 1 pmSingle rfl 5⟩

/-- C5: on a fully occupied table with boolean reference bits, the clock
eviction scan selects a victim within the `2 * capacity + 1` bound (it never
hits the exhaustion fallback), the victim's reference bit is 0 at the moment
of selection, and each slot was either left untouched or had exactly its
reference bit cleared by being skipped over. -/
theorem c5_clock_eviction (st : AlgoState)
    (hocc : ∀ of ∈ st.memory, of.isSome = true)
    (hlen : st.memory.length = st.memory_blocks)
    (hhand : st.clock_hand < st.memory_blocks)
    (hbits : ∀ f ∈ st.memory.filterMap id, f.ref_bit ≤ 1) :
    ∃ v, (clockScan false (st.memory_blocks * 2 + 1) st.memory st.clock_hand st.memory_blocks).1 = some v ∧
      (st.runClockAlgorithm false).1 = v ∧
      (∃ f, (st.runClockAlgorithm false).2.memory.get? v = some (some f) ∧ f.ref_bit = 0) ∧
      (∀ i, (st.runClockAlgorithm false).2.memory.get? i = st.memory.get? i ∨
        ∃ f, st.memory.get? i = some (some f) ∧
          (st.runClockAlgorithm false).2.memory.get? i = some (some { f with ref_bit := 0 })) := by
  have hsome := clockScan_isSome (st.memory_blocks * 2 + 1) st.memory st.clock_hand st.memory_blocks
    hocc hlen hhand (by
      have hcl : countRef st.memory ≤ st.memory.length := List.countP_le_length _
      omega)
  unfold AlgoState.runClockAlgorithm
  rcases hsc : clockScan false (st.memory_blocks * 2 + 1) st.memory st.clock_hand st.memory_blocks with ⟨v?, m', h2⟩
  cases v? with
  | none => rw [hsc] at hsome; exact Bool.noConfusion hsome
  | some v =>
    dsimp only
    obtain ⟨f, hfv, hfb⟩ := clockScan_stop _ _ _ _ _ _ _ hsc
    have hgall : ∀ i, m'.get? i = st.memory.get? i ∨
        ∃ g, st.memory.get? i = some (some g) ∧ m'.get? i = some (some { g with ref_bit := 0 }) := by
      intro i
      have hg := clockScan_get? (st.memory_blocks * 2 + 1) st.memory st.clock_hand st.memory_blocks i
      rw [hsc] at hg
      exact hg
    refine ⟨v, rfl, rfl, ⟨f, hfv, ?_⟩, hgall⟩
    rcases hgall v with hsame | ⟨g, hg1, hg2⟩
    · rw [hsame] at hfv
      have hmem : f ∈ st.memory.filterMap id :=
        List.mem_filterMap.mpr ⟨some f, List.get?_mem hfv, rfl⟩
      have := hbits f hmem
      omega
    · rw [hg2] at hfv
      injection hfv with hfv
      injection hfv with hfv
      rw [← hfv]

/-- A concrete fully occupied clock state with both reference bits set. -/
def stClockW : AlgoState :=
  { name := .LINUX
    memory_blocks := 2
    memory := [some { page := 1, pid := none, loaded_at := 1, last_access := 1, ref_bit := 1,
                      dirty := false, is_active_list := false },
               some { page := 2, pid := none, loaded_at := 2, last_access := 2, ref_bit := 1,
                      dirty := false, is_active_list := false }]
    miss_count := 2
    total_count := 2
    write_back_count := 0
    load_counter := 2
    clock_hand := 0 }

/-- C5 witness at a concrete state where the scan must clear a full rotation
before finding its victim. -/
theorem c5_clock_eviction_witness :
    (∀ of ∈ stClockW.memory, of.isSome = true) ∧
    stClockW.memory.length = stClockW.memory_blocks ∧
    stClockW.clock_hand < stClockW.memory_blocks ∧
    (∀ f ∈ stClockW.memory.filterMap id, f.ref_bit ≤ 1) ∧
    (∃ v, (clockScan false (stClockW.memory_blocks * 2 + 1) stClockW.memory stClockW.clock_hand stClockW.memory_blocks).1 = some v ∧
      (stClockW.runClockAlgorithm false).1 = v ∧
      (∃ f, (stClockW.runClockAlgorithm false).2.memory.get? v = some (some f) ∧ f.ref_bit = 0) ∧
      (∀ i, (stClockW.runClockAlgorithm false).2.memory.get? i = stClockW.memory.get? i ∨
        ∃ f, stClockW.memory.get? i = some (some f) ∧
          (stClockW.runClockAlgorithm false).2.memory.get? i = some (some { f with ref_bit := 0 }))) :=
  ⟨by decide, by decide, by decide, by decide,
   c5_clock_eviction stClockW (by decide) (by decide) (by decide) (by decide)⟩

theorem activeCount_set_inactive (mem : List (Option Frame)) (t : Nat) (nf : Frame)
    (hnf : nf.is_active_list = false) :
    activeCount (mem.set t (some nf)) ≤ activeCount mem := by
  cases h : mem.get? t with
  | none =>
    have hle : mem.length ≤ t := List.get?_eq_none.mp h
    rw [List.set_eq_of_length_le hle]
  | some u =>
    have hadd := countP_set_add (fun of =>
      match of with
      | some f => f.is_active_list
      | none => false) h (some nf)
    unfold activeCount
    have hp : (match some nf with
      | some f => f.is_active_list
      | (none : Option Frame) => false) = false := hnf
    rw [hp] at hadd
    cases u with
    | none =>
      simp at hadd
      omega
    | some uf =>
      by_cases hu : uf.is_active_list = true
      · simp [hu] at hadd
        omega
      · simp [hu] at hadd
        omega

/-- C6: for the two-list (`LINUX_NG`) policy the active-frame count starts at
0 on initialisation and, assuming the bound holds before an access, it holds
again immediately after `process()` returns — in particular immediately
after the rebalance that follows any hit — so it holds after every call. -/
theorem c6_twolist_active_bound :
    (∀ (nm : AlgoName) (b : Nat), activeCount (AlgoState.init nm b).memory = 0) ∧
    (∀ (st : AlgoState) (page : Nat) (op : Op) (now : Nat) (fut : Option (List Nat)) (pid : Option Nat),
      st.name = AlgoName.LINUX_NG →
      activeCount st.memory ≤ st.memory_blocks / 2 →
      activeCount ((st.process page op now fut pid).2.memory) ≤ st.memory_blocks / 2) := by
  constructor
  · intro nm b
    exact activeCount_replicate b
  · intro st page op now fut pid hname hbound
    unfold AlgoState.process
    dsimp only
    cases hfind : findSlotIdx (hitPred page pid) st.memory with
    | some idx =>
      dsimp only
      unfold AlgoState.handleHit
      dsimp only
      rw [hname]
      dsimp only
      have h1 : activeCount (updateFrame st.memory idx (fun f => { f with last_access := now })) =
          activeCount st.memory :=
        countP_updateFrame_eq _ _ _ _ (fun f => rfl)
      have h2 : activeCount (updateFrame
          (updateFrame st.memory idx (fun f => { f with last_access := now })) idx
          (fun f => { f with is_active_list := true })) ≤ activeCount st.memory + 1 := by
        have hle := countP_updateFrame_le (fun of =>
          match of with
          | some f => f.is_active_list
          | none => false)
          (updateFrame st.memory idx (fun f => { f with last_access := now })) idx
          (fun f => { f with is_active_list := true })
        unfold activeCount
        unfold activeCount at h1
        omega
      have h3 : activeCount (balanceLists (updateFrame
          (updateFrame st.memory idx (fun f => { f with last_access := now })) idx
          (fun f => { f with is_active_list := true })) st.memory_blocks) ≤ st.memory_blocks / 2 :=
        activeCount_balance _ _ (by omega)
      by_cases hop : op = Op.W
      · rw [if_pos hop]
        have h4 := countP_updateFrame_eq (fun of =>
          match of with
          | some f => f.is_active_list
          | none => false)
          (balanceLists (updateFrame
            (updateFrame st.memory idx (fun f => { f with last_access := now })) idx
            (fun f => { f with is_active_list := true })) st.memory_blocks) idx
          (fun f => { f with dirty := true }) (fun f => rfl)
        unfold activeCount
        unfold activeCount at h3
        omega
      · rw [if_neg hop]
        exact h3
    | none =>
      dsimp only
      unfold AlgoState.handleMiss
      dsimp only
      rw [getVictim_total_irrel]
      cases hfree : findSlotIdx (fun of => of.isNone) st.memory with
      | some t =>
        dsimp only
        exact le_trans (activeCount_set_inactive _ _ _ rfl) hbound
      | none =>
        dsimp only
        have hneL : st.name ≠ AlgoName.LINUX := by rw [hname]; decide
        have hmemEq : (st.getVictim fut).2.1 = st.memory := getVictim_memory_eq st fut hneL
        rcases hget : (st.getVictim fut).2.1.get? (st.getVictim fut).1 with - | of
        case none =>
          dsimp only
          rw [hmemEq]
          exact le_trans (activeCount_set_inactive _ _ _ rfl) hbound
        case some =>
          cases of with
          | none =>
            dsimp only
            rw [hmemEq]
            exact le_trans (activeCount_set_inactive _ _ _ rfl) hbound
          | some victim =>
            dsimp only
            rw [hmemEq]
            exact le_trans (activeCount_set_inactive _ _ _ rfl) hbound

/-- A concrete two-list state: capacity 4, one active frame, a hit on the
inactive frame triggers activation and rebalance. -/
def stTwoListW : AlgoState :=
  { name := .LINUX_NG
    memory_blocks := 4
    memory := [some { page := 1, pid := none, loaded_at := 1, last_access := 1, ref_bit := 1,
                      dirty := false, is_active_list := true },
               some { page := 2, pid := none, loaded_at := 2, last_access := 2, ref_bit := 1,
                      dirty := false, is_active_list := true },
               some { page := 3, pid := none, loaded_at := 3, last_access := 3, ref_bit := 1,
                      dirty := false, is_active_list := false },
               none]
    miss_count := 3
    total_count := 5
    write_back_count := 0
    load_counter := 3
    clock_hand := 0 }

/-- C6 witness: the preserved bound at a concrete hit that would otherwise
push the active list over half the capacity. -/
theorem c6_twolist_active_bound_witness :
    stTwoListW.name = AlgoName.LINUX_NG ∧
    activeCount stTwoListW.memory ≤ stTwoListW.memory_blocks / 2 ∧
    activeCount ((stTwoListW.process 3 Op.R 6 none none).2.memory) ≤ stTwoListW.memory_blocks / 2 :=
  ⟨rfl, by decide, c6_twolist_active_bound.2 stTwoListW 3 Op.R 6 none none rfl (by decide)⟩

/-- C7: in multi-process mode frame identity is the `(owner, page)` pair: an
access by owner `a` to page `p` reports a hit exactly when some slot holds a
frame with that owner and page, so another owner's frame for the same page
number never satisfies the lookup. -/
theorem c7_multiprocess_isolation (st : AlgoState) (page : Nat) (op : Op) (now : Nat)
    (fut : Option (List Nat)) (a : Nat) :
    (st.process page op now fut (some a)).1.status = Status.Hit ↔
      ∃ f, some f ∈ st.memory ∧ f.page = page ∧ f.pid = some a :=
  process_hit_iff st page op now fut a

/-- A concrete end-of-trace simulator state. -/
def pmEndW : PageManager :=
  { total_instructions := 12
    memory_blocks := 3
    total_pages := 32
    mode := "BELADY"
    num_processes := 1
    process_info := []
    algos := [AlgoState.init .FIFO 3, AlgoState.init .LRU 3, AlgoState.init .OPT 3,
              AlgoState.init .LINUX 3, AlgoState.init .LINUX_NG 3]
    current_inst_idx := 12
    current_time := 12
    view_algo_name := .FIFO
    instructions := beladyInstructions }

/-- C8: when the trace cursor has reached the trace length, `step()` returns
the end-of-trace signal (`none`, not an exception) and the whole simulator
state — cursor, global counters and every policy — is left unchanged. -/
theorem c8_step_end_of_trace (pm : PageManager)
    (h : pm.current_inst_idx = pm.instructions.length) :
    pm.step = (none, pm) :=
  step_at_end pm (by omega)

/-- C8 witness at a concrete exhausted simulator. -/
theorem c8_step_end_of_trace_witness :
    (pmEndW.current_inst_idx = pmEndW.instructions.length) ∧ pmEndW.step = (none, pmEndW) :=
  ⟨rfl, c8_step_end_of_trace pmEndW rfl⟩

/-- C9: `load_counter` mirrors `miss_count`: both are zero after
initialisation; given they agree before an access, they agree after it,
a hit changes neither, a miss increments both by one, and the frame loaded
by a miss carries `loaded_at` equal to the miss count at the time of the
load. -/
theorem c9_load_counter_tracks_misses :
    (∀ (nm : AlgoName) (b : Nat),
        (AlgoState.init nm b).load_counter = 0 ∧ (AlgoState.init nm b).miss_count = 0) ∧
    (∀ (st : AlgoState) (page : Nat) (op : Op) (now : Nat) (fut : Option (List Nat)) (pid : Option Nat),
      st.load_counter = st.miss_count →
      ((st.process page op now fut pid).2.load_counter = (st.process page op now fut pid).2.miss_count ∧
       ((st.process page op now fut pid).1.status = Status.Hit →
          (st.process page op now fut pid).2.miss_count = st.miss_count) ∧
       ((st.process page op now fut pid).1.status = Status.Miss →
          (st.process page op now fut pid).2.miss_count = st.miss_count + 1) ∧
       (st.memory.length = st.memory_blocks → 0 < st.memory.length →
        st.clock_hand < st.memory_blocks →
        (st.process page op now fut pid).1.status = Status.Miss →
        ∃ i, ((st.process page op now fut pid).2.memory).get? i =
            some (some (missFrame st page op now pid)) ∧
          (missFrame st page op now pid).loaded_at = (st.process page op now fut pid).2.miss_count))) := by
  constructor
  · intro nm b
    exact ⟨rfl, rfl⟩
  · intro st page op now fut pid h
    rcases process_counters st page op now fut pid with ⟨hst, hmc, hlc⟩ | ⟨hst, hmc, hlc⟩
    · refine ⟨by rw [hmc, hlc, h], fun _ => hmc, ?_, ?_⟩
      · intro hm
        rw [hst] at hm
        exact absurd hm (by simp)
      · intro _ _ _ hm
        rw [hst] at hm
        exact absurd hm (by simp)
    · refine ⟨by rw [hmc, hlc, h], ?_, fun _ => hmc, ?_⟩
      · intro hm
        rw [hst] at hm
        exact absurd hm (by simp)
      · intro hlen hpos hhand hm
        obtain ⟨i, hi⟩ := process_miss_placement st page op now fut pid hlen hpos hhand hm
        refine ⟨i, hi, ?_⟩
        rw [hmc, ← h]
        rfl

/-- A concrete state about to miss (page 9 is not resident). -/
def stMissW : AlgoState :=
  { name := .FIFO
    memory_blocks := 2
    memory := [some { page := 1, pid := none, loaded_at := 1, last_access := 1, ref_bit := 1,
                      dirty := false, is_active_list := false },
               some { page := 2, pid := none, loaded_at := 2, last_access := 2, ref_bit := 1,
                      dirty := false, is_active_list := false }]
    miss_count := 2
    total_count := 2
    write_back_count := 0
    load_counter := 2
    clock_hand := 0 }

/-- C9 witness at a concrete miss. -/
theorem c9_load_counter_tracks_misses_witness :
    stMissW.load_counter = stMissW.miss_count ∧
    ((stMissW.process 9 Op.R 3 none none).2.load_counter = (stMissW.process 9 Op.R 3 none none).2.miss_count ∧
     ((stMissW.process 9 Op.R 3 none none).1.status = Status.Hit →
        (stMissW.process 9 Op.R 3 none none).2.miss_count = stMissW.miss_count) ∧
     ((stMissW.process 9 Op.R 3 none none).1.status = Status.Miss →
        (stMissW.process 9 Op.R 3 none none).2.miss_count = stMissW.miss_count + 1) ∧
     (stMissW.memory.length = stMissW.memory_blocks → 0 < stMissW.memory.length →
      stMissW.clock_hand < stMissW.memory_blocks →
      (stMissW.process 9 Op.R 3 none none).1.status = Status.Miss →
      ∃ i, ((stMissW.process 9 Op.R 3 none none).2.memory).get? i =
          some (some (missFrame stMissW 9 Op.R 3 none)) ∧
        (missFrame stMissW 9 Op.R 3 none).loaded_at = (stMissW.process 9 Op.R 3 none none).2.miss_count)) :=
  ⟨rfl, c9_load_counter_tracks_misses.2 stMissW 9 Op.R 3 none none rfl⟩

/-- C10: the optimal policy's victim choice is blind to frame ownership —
it depends only on the page number stored in each slot — and the lookahead
`step()` hands it is equally blind to the owner component of the trace. -/
theorem c10_opt_ignores_ownership :
    (∀ (fut : Option (List Nat)) (m1 m2 : List (Option Frame)),
        m1.map (Option.map Frame.page) = m2.map (Option.map Frame.page) →
        getOptVictim fut m1 = getOptVictim fut m2) ∧
    (∀ (i : Nat) (l1 l2 : List Inst),
        l1.map (fun t => t.1) = l2.map (fun t => t.1) →
        futurePagesOf l1 i = futurePagesOf l2 i) :=
  ⟨fun fut _ _ h => getOptVictim_page_congr fut h,
   fun i _ _ h => futurePagesOf_congr i h⟩

/-- A table whose two frames are owned by process 0. -/
def memOwnerA : List (Option Frame) :=
  [some { page := 2, pid := some 0, loaded_at := 1, last_access := 1, ref_bit := 1,
          dirty := false, is_active_list := false },
   some { page := 5, pid := some 0, loaded_at := 2, last_access := 2, ref_bit := 1,
          dirty := false, is_active_list := false }]

/-- The same pages, but the first frame is owned by process 1 instead. -/
def memOwnerB : List (Option Frame) :=
  [some { page := 2, pid := some 1, loaded_at := 7, last_access := 9, ref_bit := 0,
          dirty := true, is_active_list := true },
   some { page := 5, pid := some 0, loaded_at := 2, last_access := 2, ref_bit := 1,
          dirty := false, is_active_list := false }]

/-- C10 witness: changing owners (and every non-page field) of the resident
frames leaves the optimal victim unchanged, and traces differing only in
owners give the same lookahead. -/
theorem c10_opt_ignores_ownership_witness :
    (memOwnerA.map (Option.map Frame.page) = memOwnerB.map (Option.map Frame.page)) ∧
    getOptVictim (some [2, 7]) memOwnerA = getOptVictim (some [2, 7]) memOwnerB ∧
    ([(20, Op.R, some 0), (50, Op.W, some 0)] : List Inst).map (fun t => t.1) =
      ([(20, Op.R, some 1), (50, Op.W, some 0)] : List Inst).map (fun t => t.1) ∧
    futurePagesOf [(20, Op.R, some 0), (50, Op.W, some 0)] 0 =
      futurePagesOf [(20, Op.R, some 1), (50, Op.W, some 0)] 0 :=
  ⟨by decide,
   c10_opt_ignores_ownership.1 (some [2, 7]) memOwnerA memOwnerB (by decide),
   by decide,
   c10_opt_ignores_ownership.2 0 [(20, Op.R, some 0), (50, Op.W, some 0)]
     [(20, Op.R, some 1), (50, Op.W, some 0)] (by decide)⟩

end MemModel
